import Mathlib

/-!
Verification of the queuing core of the repository (`pennylane/queuing.py`
and its callers).  The Python data structures are shallowly embedded:

* an instruction (`Obj`) is identity-compared; its only capability the core
  reads is the optional `_queue_category` attribute (the phase tag);
* a queue key (`QKey`) is either a plain instruction or a `Queue` object
  (composite scopes append themselves into their parent's queue);
* an annotation map (`Ann`) embeds the Python kwargs dict: an ordered
  association list from string keys to values;
* `OrderedDict` becomes an ordered association list with Python dict
  semantics: assigning to a present key replaces the value in place
  (position preserved), assigning to a fresh key appends at the end;
* the process-wide state of `QueueManager` (the `_recording_queues` stack),
  the per-queue dicts and the `RLock` hold count form a `World`.  The stack
  grows at the head: `add_recording_queue` pushes at the head and
  `active_queue` reads the head, mirroring the Python list that grows at the
  end with the active queue at index `-1`.
-/

/-- The two queue categories the partitioner knows: the strings `"_ops"`
(phase 0) and `"_measurements"` (phase 1) in the source. -/
inductive QueueCat where
  | ops
  | measurements
deriving DecidableEq, Repr

/-- `list_order` in `process_queue`: the phase index of each category. -/
def catIdx : QueueCat → Nat
  | .ops => 0
  | .measurements => 1

/-- An instruction: an identity (`id`) plus the optional `_queue_category`
capability; the payload is opaque to the queuing core. -/
structure Obj where
  id : Nat
  cat : Option QueueCat
deriving DecidableEq, Repr

/-- A key of a queue's `OrderedDict`: either a plain instruction or a
queue/scope object appended into its parent (`Queue.__enter__` appends
`self`).  A `Queue` object has no `_queue_category` attribute. -/
inductive QKey where
  | ins (o : Obj)
  | qu (qid : Nat)
deriving DecidableEq, Repr

/-- `getattr(obj, "_queue_category", None)`. -/
def qcat : QKey → Option QueueCat
  | .ins o => o.cat
  | .qu _ => none

/-- An annotation value (the Python values stored in the kwargs dict):
`None`, a reference to another queued object (for `owner` / `owns`), or an
opaque payload. -/
inductive Val where
  | none
  | ref (k : QKey)
  | nat (n : Nat)
deriving DecidableEq, Repr

/-- An annotation map: the kwargs dict attached to a queued instruction. -/
abbrev Ann := List (String × Val)

/-- `key in m` on a Python dict. -/
def annHasKey (m : Ann) (key : String) : Bool :=
  m.any (fun e => e.1 = key)

/-- `m[key]` lookup on a Python dict, as an option (first match). -/
def annLookup (m : Ann) (key : String) : Option Val :=
  match m with
  | [] => Option.none
  | e :: rest => if e.1 = key then some e.2 else annLookup rest key

/-- `m[key] = v` on a Python dict: replace the value of a present key in
place (position preserved), append at the end when the key is fresh. -/
def annSet (m : Ann) (key : String) (v : Val) : Ann :=
  match m with
  | [] => [(key, v)]
  | e :: rest => if e.1 = key then (key, v) :: rest else e :: annSet rest key v

/-- `m.update(kwargs)` on a Python dict. -/
def annUpdate (m kwargs : Ann) : Ann :=
  kwargs.foldl (fun acc e => annSet acc e.1 e.2) m

/-- The `OrderedDict` held by a `Queue`: insertion-ordered, identity-keyed. -/
abbrev QDict := List (QKey × Ann)

/-- `obj in self._queue`. -/
def dictHasKey (d : QDict) (k : QKey) : Bool :=
  d.any (fun e => e.1 = k)

/-- `self._queue.get(obj, {})`: the annotation map, or empty when absent
(`Queue.get_info`). -/
def dictGet (d : QDict) (k : QKey) : Ann :=
  match d with
  | [] => []
  | e :: rest => if e.1 = k then e.2 else dictGet rest k

/-- `self._queue[obj] = kwargs` (`Queue.append`): replace the value of an
already-present identity in place (position preserved), append at the end
otherwise. -/
def dictSet (d : QDict) (k : QKey) (ann : Ann) : QDict :=
  match d with
  | [] => [(k, ann)]
  | e :: rest => if e.1 = k then (k, ann) :: rest else e :: dictSet rest k ann

/-- `del self._queue[obj]` (`Queue.remove`): `Option.none` embeds the
`KeyError` on an absent key. -/
def dictRemove (d : QDict) (k : QKey) : Option QDict :=
  if dictHasKey d k then some (d.filter (fun e => e.1 ≠ k)) else Option.none

/-- `Queue.update_info`: merge the kwargs into the present instruction's
map (`if obj in self._queue: self._queue[obj].update(kwargs)`), no-op when
the instruction is absent. -/
def dictUpdateInfo (d : QDict) (k : QKey) (kwargs : Ann) : QDict :=
  match d with
  | [] => []
  | e :: rest =>
    if e.1 = k then (k, annUpdate e.2 kwargs) :: rest
    else e :: dictUpdateInfo rest k kwargs

/-- `Queue.queue`: `list(self._queue)`, the keys in insertion order. -/
def dictKeys (d : QDict) : List QKey :=
  d.map (fun e => e.1)

/-- The `ValueError` raised by `process_queue`: it names the offending
object and the current list (`current_list`) the object should have
occurred prior to. -/
structure PQError where
  obj : QKey
  current : QueueCat
deriving DecidableEq, Repr

/-- Append `k` to the bucket selected by `obj._queue_category`
(`list_dict[obj._queue_category].append(obj)`). -/
def bucketPush (ops ms : List QKey) (c : QueueCat) (k : QKey) :
    List QKey × List QKey :=
  match c with
  | .ops => (ops ++ [k], ms)
  | .measurements => (ops, ms ++ [k])

/-- The loop of `process_queue`, with the two buckets (`list_dict`) and the
current list (`current_list`) as explicit state. -/
def processGo : QDict → List QKey → List QKey → QueueCat →
    Except PQError (List QKey × List QKey)
  | [], ops, ms, _ => .ok (ops, ms)
  | (k, info) :: rest, ops, ms, cur =>
    match annHasKey info "owner", qcat k with
    | false, some c =>
      if catIdx c > catIdx cur then
        let b := bucketPush ops ms c k
        processGo rest b.1 b.2 c
      else if catIdx c < catIdx cur then
        .error ⟨k, cur⟩
      else
        let b := bucketPush ops ms c k
        processGo rest b.1 b.2 cur
    | _, _ => processGo rest ops ms cur

/-- `process_queue(queue)`: walk `queue.items()` in insertion order,
starting from the `_ops` list. -/
def process_queue (q : QDict) : Except PQError (List QKey × List QKey) :=
  processGo q [] [] .ops

/-- The per-queue dicts of all live `Queue` objects, keyed by queue
identity. -/
abbrev QueueMap := List (Nat × QDict)

/-- Read a queue's dict (a fresh queue starts empty, `Queue.__init__`). -/
def getQ (qs : QueueMap) (i : Nat) : QDict :=
  match qs with
  | [] => []
  | e :: rest => if e.1 = i then e.2 else getQ rest i

/-- Overwrite a queue's dict. -/
def setQ (qs : QueueMap) (i : Nat) (d : QDict) : QueueMap :=
  match qs with
  | [] => [(i, d)]
  | e :: rest => if e.1 = i then (i, d) :: rest else e :: setQ rest i d

/-- The process-wide state: the `QueueManager._recording_queues` stack (top
at the head), the dict of every queue, and the hold count of the shared
reentrant `Queue._lock`. -/
structure World where
  stack : List Nat
  queues : QueueMap
  lock : Nat
deriving DecidableEq, Repr

namespace QueueManager

/-- `QueueManager.recording()`: `bool(cls._recording_queues)`. -/
def recording (w : World) : Bool :=
  w.stack ≠ []

/-- `QueueManager.active_queue()`: the top of the stack, or `None`. -/
def active_queue (w : World) : Option Nat :=
  w.stack.head?

/-- `QueueManager.add_recording_queue(queue)`. -/
def add_recording_queue (w : World) (qid : Nat) : World :=
  { w with stack := qid :: w.stack }

/-- `QueueManager.remove_recording_queue()`: pop and return the top;
`Option.none` embeds the `IndexError` of popping an empty list. -/
def remove_recording_queue (w : World) : Option (Nat × World) :=
  match w.stack with
  | [] => Option.none
  | q :: rest => some (q, { w with stack := rest })

/-- `QueueManager.append(obj, **kwargs)`: a no-op when not recording,
otherwise `Queue.append` on the active queue. -/
def append (w : World) (k : QKey) (kwargs : Ann) : World :=
  match w.stack with
  | [] => w
  | q :: _ => { w with queues := setQ w.queues q (dictSet (getQ w.queues q) k kwargs) }

/-- `QueueManager.remove(obj)`: a no-op when not recording, otherwise
`Queue.remove` on the active queue (`Option.none` embeds its `KeyError`). -/
def remove (w : World) (k : QKey) : Option World :=
  match w.stack with
  | [] => some w
  | q :: _ =>
    match dictRemove (getQ w.queues q) k with
    | Option.none => Option.none
    | some d => some { w with queues := setQ w.queues q d }

/-- `QueueManager.update_info(obj, **kwargs)`: a no-op when not recording,
otherwise `Queue.update_info` on the active queue. -/
def update_info (w : World) (k : QKey) (kwargs : Ann) : World :=
  match w.stack with
  | [] => w
  | q :: _ => { w with queues := setQ w.queues q (dictUpdateInfo (getQ w.queues q) k kwargs) }

/-- `QueueManager.get_info(obj)`: the Python function returns
`cls.active_queue().get_info(obj)` when recording and falls through to an
implicit `return None` otherwise; `Option.none` embeds that `None`. -/
def get_info (w : World) (k : QKey) : Option Ann :=
  match w.stack with
  | [] => Option.none
  | q :: _ => some (dictGet (getQ w.queues q) k)

/-- `QueueManager.stop_recording()` (textually identical to
`Queue.stop_recording`): save the stack, detach it to `[]`, run the body,
and — only when the body did not raise — restore the saved stack.  The
source `@contextmanager` has no `try/finally` around its `yield`, so when
the body raises, the exception propagates out of the `yield` and the
restoring assignment after it never runs; the state is then whatever the
body left behind. -/
def stop_recording (w : World)
    (body : World → Except Unit Unit × World) : Except Unit Unit × World :=
  let saved := w.stack
  let detached : World := { w with stack := [] }
  let r := body detached
  match r.1 with
  | .ok _ => (.ok (), { r.2 with stack := saved })
  | .error e => (.error e, r.2)

end QueueManager

namespace Queue

/-- `Queue.__enter__`: acquire the shared reentrant lock, append `self`
into the active outer queue when `self.do_queue` and an outer queue is
recording, then push `self` onto the recording stack.  (The `except`
branch that releases the lock and re-raises is unreachable in this model:
neither `append` nor the push can raise.) -/
def enter (w : World) (qid : Nat) (do_queue : Bool) : World :=
  let w := { w with lock := w.lock + 1 }
  let w :=
    if do_queue ∧ QueueManager.recording w then
      QueueManager.append w (.qu qid) []
    else w
  QueueManager.add_recording_queue w qid

/-- `Queue.__exit__`: pop the recording stack — and nothing else; in
particular the lock acquired by `__enter__` is not released.  `Option.none`
embeds the `IndexError` of popping an empty stack. -/
def exit (w : World) : Option World :=
  match QueueManager.remove_recording_queue w with
  | Option.none => Option.none
  | some (_, w') => some w'

end Queue

/-- `QueuingContext.safe_update_info` is called by
`HamiltonainEncoding.queue` but is not defined under `src/`.
Modelled from the spec: `updateAnnotations(instruction, annotations)`
"merges new key/value pairs into the existing annotation map; no-op if the
instruction is absent", and manager-level calls "no-ops ... when no scope
is active; otherwise delegate to `current()`" — i.e. the non-throwing
update, which is exactly `QueueManager.update_info` of this repository. -/
def safe_update_info (w : World) (k : QKey) (kwargs : Ann) : World :=
  QueueManager.update_info w k kwargs

/-- `HamiltonainEncoding.queue(context)`: for every child `op` of the
composite, annotate the child with `owner=self` and append `self` to the
active queue with `owns=op`. -/
def he_queue (w : World) (s : QKey) (children : List QKey) : World :=
  children.foldl
    (fun w op =>
      QueueManager.append (safe_update_info w op [("owner", .ref s)]) s [("owns", .ref op)])
    w

/-- The per-child dict transformation of `HamiltonainEncoding.queue`: the
`safe_update_info(op, owner=self)` / `append(self, owns=op)` pair, at the
level of the active queue's dict. -/
def hestep (s : QKey) (d : QDict) (c : QKey) : QDict :=
  dictSet (dictUpdateInfo d c [("owner", .ref s)]) s [("owns", .ref c)]

/-- `HamiltonainEncoding.queue`'s whole loop, at the level of the active
queue's dict. -/
def hesFold (s : QKey) (d : QDict) (cs : List QKey) : QDict :=
  cs.foldl (hestep s) d

/-- A suspended-region body that finishes normally, leaving the state it
was given. -/
def bodyOk : World → Except Unit Unit × World :=
  fun w => (.ok (), w)

/-- A suspended-region body that raises, leaving the state it was given. -/
def bodyRaise : World → Except Unit Unit × World :=
  fun w => (.error (), w)

/-! ### Derived notions used to state the partitioner claims -/

/-- Phase eligibility of a queue entry: no `owner` annotation and a phase
tag exposed. -/
def eligOf (e : QKey × Ann) : Bool :=
  !annHasKey e.2 "owner" && (qcat e.1).isSome

/-- The queue's insertion order filtered by phase eligibility. -/
def eligKeys (q : QDict) : List QKey :=
  (q.filter eligOf).map (fun e => e.1)

/-- The eligible entries of phase `_ops`, in insertion order. -/
def opsElig (q : QDict) : List QKey :=
  (q.filter (fun e => !annHasKey e.2 "owner" && (qcat e.1 = some .ops))).map (fun e => e.1)

/-- The eligible entries of phase `_measurements`, in insertion order. -/
def msElig (q : QDict) : List QKey :=
  (q.filter (fun e => !annHasKey e.2 "owner" && (qcat e.1 = some .measurements))).map (fun e => e.1)

/-- The eligible phase tags of `q` are monotonically non-decreasing,
starting from phase index `cur`. -/
def okFrom (cur : Nat) : QDict → Bool
  | [] => true
  | e :: rest =>
    match annHasKey e.2 "owner", qcat e.1 with
    | false, some c => decide (cur ≤ catIdx c) && okFrom (catIdx c) rest
    | _, _ => okFrom cur rest

/-- The partitioner's `current_list` after scanning `q` from current
category `cur` (only meaningful when the scan does not fail). -/
def curAfter (cur : QueueCat) : QDict → QueueCat
  | [] => cur
  | e :: rest =>
    match annHasKey e.2 "owner", qcat e.1 with
    | false, some c =>
      curAfter (if catIdx c > catIdx cur then c else cur) rest
    | _, _ => curAfter cur rest

/-! ### Derived notions used to state the queue-view claims -/

/-- A whole history of `Queue.append` calls, run in order. -/
def appendAll (d : QDict) (l : List (QKey × Ann)) : QDict :=
  l.foldl (fun acc e => dictSet acc e.1 e.2) d

/-- Association lookup on a queue dict (`some` iff the key is present). -/
def dictLookup (d : QDict) (k : QKey) : Option Ann :=
  match d with
  | [] => Option.none
  | e :: rest => if e.1 = k then some e.2 else dictLookup rest k

/-- Accumulator loop of `firstOccur`. -/
def firstOccurAux (acc : List QKey) : List QKey → List QKey
  | [] => acc
  | k :: rest => firstOccurAux (if k ∈ acc then acc else acc ++ [k]) rest

/-- The distinct identities of a list in order of first occurrence. -/
def firstOccur (l : List QKey) : List QKey :=
  firstOccurAux [] l

/-- The annotation map of the last append of identity `k` in the call
history `l` (last write wins), or `Option.none` when never appended. -/
def lastWrite (l : List (QKey × Ann)) (k : QKey) : Option Ann :=
  (l.reverse.find? (fun e => decide (e.1 = k))).map (fun e => e.2)

/-! ### Concrete sample instructions and queues used by witnesses -/

/-- A phase-0 (`_ops`) instruction. -/
def o0 : Obj := ⟨0, some .ops⟩

/-- A second phase-0 (`_ops`) instruction. -/
def o1 : Obj := ⟨1, some .ops⟩

/-- A phase-1 (`_measurements`) instruction. -/
def m0 : Obj := ⟨2, some .measurements⟩

/-- A second phase-1 (`_measurements`) instruction. -/
def m1 : Obj := ⟨3, some .measurements⟩

/-- The queue `[phase0, phase0, phase1, phase1]`. -/
def exQ1 : QDict := [(.ins o0, []), (.ins o1, []), (.ins m0, []), (.ins m1, [])]

/-- The queue `[phase0, phase1]`, a clean run before an offending entry. -/
def exPre2 : QDict := [(.ins o0, []), (.ins m0, [])]

/-- A world with one active scope (queue 0) whose queue already holds the
two children `o0` and `o1`. -/
def exW7 : World := ⟨[0], [(0, [(.ins o0, []), (.ins o1, [])])], 0⟩

/-- A composite instruction registering `o0` and `o1` as its children. -/
def exS7 : QKey := .ins m0

/-! ### Lemmas about the partitioner loop -/

theorem opsElig_cons (e : QKey × Ann) (q : QDict) :
    opsElig (e :: q) =
      if !annHasKey e.2 "owner" && decide (qcat e.1 = some QueueCat.ops) then
        e.1 :: opsElig q
      else opsElig q := by
  simp only [opsElig, List.filter_cons]
  split <;> simp_all

theorem msElig_cons (e : QKey × Ann) (q : QDict) :
    msElig (e :: q) =
      if !annHasKey e.2 "owner" && decide (qcat e.1 = some QueueCat.measurements) then
        e.1 :: msElig q
      else msElig q := by
  simp only [msElig, List.filter_cons]
  split <;> simp_all

theorem eligKeys_cons (e : QKey × Ann) (q : QDict) :
    eligKeys (e :: q) =
      if eligOf e then e.1 :: eligKeys q else eligKeys q := by
  simp only [eligKeys, List.filter_cons]
  split <;> simp_all

theorem processGo_append (pre rest : QDict) (ops ms : List QKey) (cur : QueueCat)
    (h : okFrom (catIdx cur) pre = true) :
    processGo (pre ++ rest) ops ms cur =
      processGo rest (ops ++ opsElig pre) (ms ++ msElig pre) (curAfter cur pre) := by
  induction pre generalizing ops ms cur with
  | nil => simp [opsElig, msElig, curAfter]
  | cons e pre ih =>
    obtain ⟨k, info⟩ := e
    cases hO : annHasKey info "owner" with
    | true =>
      have h' : okFrom (catIdx cur) pre = true := by
        cases hc : qcat k <;> simpa [okFrom, hO, hc] using h
      cases hc : qcat k <;>
        simp [processGo, opsElig_cons, msElig_cons, curAfter, hO, hc, ih _ _ _ h']
    | false =>
      cases hc : qcat k with
      | none =>
        have h' : okFrom (catIdx cur) pre = true := by
          simpa [okFrom, hO, hc] using h
        simp [processGo, opsElig_cons, msElig_cons, curAfter, hO, hc, ih _ _ _ h']
      | some c =>
        have h' : (decide (catIdx cur ≤ catIdx c) && okFrom (catIdx c) pre) = true := by
          simpa [okFrom, hO, hc] using h
        rw [Bool.and_eq_true, decide_eq_true_eq] at h'
        obtain ⟨hle, h2⟩ := h'
        cases cur <;> cases c <;> simp [catIdx] at hle ⊢ <;>
          simp [processGo, opsElig_cons, msElig_cons, curAfter, bucketPush, catIdx, hO, hc,
            ih _ _ _ h2, List.append_assoc]

theorem opsElig_eq_nil_of_high (q : QDict) (h : okFrom 1 q = true) :
    opsElig q = [] ∧ msElig q = eligKeys q := by
  induction q with
  | nil => simp [opsElig, msElig, eligKeys]
  | cons e q ih =>
    obtain ⟨k, info⟩ := e
    cases hO : annHasKey info "owner" with
    | true =>
      have h' : okFrom 1 q = true := by
        cases hc : qcat k <;> simpa [okFrom, hO, hc] using h
      cases hc : qcat k <;>
        simpa [opsElig_cons, msElig_cons, eligKeys_cons, eligOf, hO, hc] using ih h'
    | false =>
      cases hc : qcat k with
      | none =>
        have h' : okFrom 1 q = true := by simpa [okFrom, hO, hc] using h
        simpa [opsElig_cons, msElig_cons, eligKeys_cons, eligOf, hO, hc] using ih h'
      | some c =>
        have h' : (decide (1 ≤ catIdx c) && okFrom (catIdx c) q) = true := by
          simpa [okFrom, hO, hc] using h
        rw [Bool.and_eq_true, decide_eq_true_eq] at h'
        obtain ⟨hle, h2⟩ := h'
        cases c with
        | ops => simp [catIdx] at hle
        | measurements =>
          have := ih (by simpa [catIdx] using h2)
          simpa [opsElig_cons, msElig_cons, eligKeys_cons, eligOf, hO, hc] using this

theorem elig_concat (q : QDict) (h : okFrom 0 q = true) :
    opsElig q ++ msElig q = eligKeys q := by
  induction q with
  | nil => simp [opsElig, msElig, eligKeys]
  | cons e q ih =>
    obtain ⟨k, info⟩ := e
    cases hO : annHasKey info "owner" with
    | true =>
      have h' : okFrom 0 q = true := by
        cases hc : qcat k <;> simpa [okFrom, hO, hc] using h
      cases hc : qcat k <;>
        simpa [opsElig_cons, msElig_cons, eligKeys_cons, eligOf, hO, hc] using ih h'
    | false =>
      cases hc : qcat k with
      | none =>
        have h' : okFrom 0 q = true := by simpa [okFrom, hO, hc] using h
        simpa [opsElig_cons, msElig_cons, eligKeys_cons, eligOf, hO, hc] using ih h'
      | some c =>
        have h' : (decide (0 ≤ catIdx c) && okFrom (catIdx c) q) = true := by
          simpa [okFrom, hO, hc] using h
        rw [Bool.and_eq_true, decide_eq_true_eq] at h'
        obtain ⟨_, h2⟩ := h'
        cases c with
        | ops =>
          have := ih (by simpa [catIdx] using h2)
          simpa [opsElig_cons, msElig_cons, eligKeys_cons, eligOf, hO, hc] using this
        | measurements =>
          obtain ⟨hops, hms⟩ := opsElig_eq_nil_of_high q (by simpa [catIdx] using h2)
          simp [opsElig_cons, msElig_cons, eligKeys_cons, eligOf, hO, hc, hops, hms]


theorem processGo_skip (x : QKey) (info : Ann)
    (h : annHasKey info "owner" = true ∨ qcat x = none) (pre post : QDict) :
    ∀ ops ms cur, processGo (pre ++ (x, info) :: post) ops ms cur =
      processGo (pre ++ post) ops ms cur := by
  induction pre with
  | nil =>
    intro ops ms cur
    rcases h with h | h
    · simp [processGo, h]
    · cases hO : annHasKey info "owner" <;> simp [processGo, h, hO]
  | cons e pre ih =>
    intro ops ms cur
    obtain ⟨k, i⟩ := e
    cases hO : annHasKey i "owner" with
    | true =>
      cases hc : qcat k <;> simp [processGo, hO, hc, ih]
    | false =>
      cases hc : qcat k with
      | none => simp [processGo, hO, hc, ih]
      | some c =>
        simp only [List.cons_append, processGo, hO, hc]
        split
        · exact ih _ _ _
        · split
          · rfl
          · exact ih _ _ _

/-- Claim C1: on a queue whose non-owned, phase-tagged entries are in
non-decreasing phase order, `process_queue` succeeds; the `_ops` bucket is
the insertion-ordered list of eligible phase-0 entries, the
`_measurements` bucket the insertion-ordered list of eligible phase-1
entries, and the concatenation of the buckets is exactly the insertion
order filtered by phase eligibility (no reordering inside a bucket). -/
theorem C1_sorted_queue_partitions_in_order (q : QDict) (h : okFrom 0 q = true) :
    process_queue q = .ok (opsElig q, msElig q) ∧
      opsElig q ++ msElig q = eligKeys q := by
  constructor
  · have hq := processGo_append q [] [] [] .ops (by simpa [catIdx] using h)
    simpa [process_queue, processGo] using hq
  · exact elig_concat q h

/-- Witness for C1 at the input order `[phase0, phase0, phase1, phase1]`:
partitioning succeeds with buckets of length 2 and 2 preserving internal
order. -/
theorem C1_sorted_queue_partitions_in_order_witness :
    okFrom 0 exQ1 = true ∧
      (process_queue exQ1 = .ok (opsElig exQ1, msElig exQ1) ∧
        opsElig exQ1 ++ msElig exQ1 = eligKeys exQ1) ∧
      opsElig exQ1 = [.ins o0, .ins o1] ∧ msElig exQ1 = [.ins m0, .ins m1] :=
  ⟨by decide, C1_sorted_queue_partitions_in_order exQ1 (by decide), by decide, by decide⟩

/-- Claim C2: when the scan reaches a non-owned, phase-tagged entry whose
phase index is strictly below the current phase index accumulated over the
clean part already scanned, `process_queue` fails immediately with the
`ValueError` naming the offending instruction and the current phase it
should have preceded, whatever follows it. -/
theorem C2_out_of_order_entry_fails (pre post : QDict) (x : QKey) (info : Ann)
    (c : QueueCat) (hpre : okFrom 0 pre = true)
    (hx : annHasKey info "owner" = false) (hc : qcat x = some c)
    (hlt : catIdx c < catIdx (curAfter .ops pre)) :
    process_queue (pre ++ (x, info) :: post) = .error ⟨x, curAfter .ops pre⟩ := by
  have h := processGo_append pre ((x, info) :: post) [] [] .ops
    (by simpa [catIdx] using hpre)
  rw [process_queue, h]
  have hgt : ¬ (catIdx c > catIdx (curAfter .ops pre)) := by omega
  simp only [processGo, hx, hc]
  rw [if_neg hgt, if_pos hlt]

/-- Witness for C2 at the input order `[phase0, phase1, phase0]`:
partitioning fails on the final element, naming it and the
`_measurements` phase it should have preceded. -/
theorem C2_out_of_order_entry_fails_witness :
    (okFrom 0 exPre2 = true ∧ annHasKey [] "owner" = false ∧
      qcat (.ins o1) = some .ops ∧
      catIdx .ops < catIdx (curAfter .ops exPre2)) ∧
    process_queue (exPre2 ++ (.ins o1, []) :: []) = .error ⟨.ins o1, curAfter .ops exPre2⟩ :=
  ⟨⟨by decide, by decide, by decide, by decide⟩,
    C2_out_of_order_entry_fails exPre2 [] (.ins o1) [] .ops
      (by decide) (by decide) (by decide) (by decide)⟩

/-- Claim C5: an entry carrying an `owner` annotation, or exposing no
phase tag, is skipped entirely by `process_queue`: deleting it from the
queue does not change the result at all — it lands in no bucket and
neither advances nor violates the phase order. -/
theorem C5_owned_or_untagged_entries_skipped (pre post : QDict) (x : QKey) (info : Ann)
    (h : annHasKey info "owner" = true ∨ qcat x = none) :
    process_queue (pre ++ (x, info) :: post) = process_queue (pre ++ post) :=
  processGo_skip x info h pre post [] [] .ops

/-- Witness for C5: an owner-annotated phase-0 instruction between two
eligible entries is invisible to the partitioner. -/
theorem C5_owned_or_untagged_entries_skipped_witness :
    (annHasKey [("owner", Val.ref (.ins m0))] "owner" = true ∨ qcat (.ins o1) = none) ∧
      process_queue ([(.ins o0, [])] ++ (.ins o1, [("owner", .ref (.ins m0))]) :: [(.ins m0, [])]) =
        process_queue ([(.ins o0, [])] ++ [(.ins m0, [])]) :=
  ⟨Or.inl (by decide),
    C5_owned_or_untagged_entries_skipped [(.ins o0, [])] [(.ins m0, [])]
      (.ins o1) [("owner", .ref (.ins m0))] (Or.inl (by decide))⟩

/-- Claim C10: the partitioner skips an entry on the mere presence of the
`"owner"` key in its annotation map, whatever the associated value is —
including the null value `Val.none`. -/
theorem C10_owner_presence_not_value_decides_skip (pre post : QDict) (x : QKey) (v : Val) :
    process_queue (pre ++ (x, [("owner", v)]) :: post) = process_queue (pre ++ post) :=
  processGo_skip x [("owner", v)] (Or.inl (by simp [annHasKey])) pre post [] [] .ops

/-! ### Lemmas about the queue view -/

theorem dictKeys_dictSet (d : QDict) (k : QKey) (ann : Ann) :
    dictKeys (dictSet d k ann) =
      if k ∈ dictKeys d then dictKeys d else dictKeys d ++ [k] := by
  induction d with
  | nil => simp [dictSet, dictKeys]
  | cons e d ih =>
    by_cases he : e.1 = k
    · simp [dictSet, dictKeys, he]
    · simp only [dictSet, if_neg he, dictKeys, List.map_cons]
      have ih' : List.map (fun e => e.1) (dictSet d k ann) =
          if k ∈ List.map (fun e => e.1) d then List.map (fun e => e.1) d
          else List.map (fun e => e.1) d ++ [k] := ih
      rw [ih']
      by_cases hk : k ∈ List.map (fun e => e.1) d
      · rw [if_pos hk, if_pos (List.mem_cons.mpr (Or.inr hk))]
      · rw [if_neg hk, if_neg ?hni, List.cons_append]
        case hni =>
          intro hmem
          rcases List.mem_cons.mp hmem with h | h
          · exact he h.symm
          · exact hk h

theorem dictLookup_dictSet (d : QDict) (k0 : QKey) (ann : Ann) (k : QKey) :
    dictLookup (dictSet d k0 ann) k = if k = k0 then some ann else dictLookup d k := by
  induction d with
  | nil => simp [dictSet, dictLookup, eq_comm]
  | cons e d ih =>
    by_cases he : e.1 = k0
    · by_cases hk : k = k0
      · simp [dictSet, dictLookup, he, hk]
      · simp [dictSet, dictLookup, he, hk, Ne.symm hk]
    · by_cases hk : k = k0
      · subst hk
        simp [dictSet, dictLookup, he, ih]
      · simp [dictSet, dictLookup, he, hk, ih]

theorem firstOccurAux_snoc (l : List QKey) (k : QKey) :
    ∀ acc, firstOccurAux acc (l ++ [k]) =
      if k ∈ firstOccurAux acc l then firstOccurAux acc l
      else firstOccurAux acc l ++ [k] := by
  induction l with
  | nil => intro acc; simp [firstOccurAux]
  | cons x l ih => intro acc; simp [firstOccurAux, ih]

theorem lastWrite_snoc (l : List (QKey × Ann)) (e : QKey × Ann) (k : QKey) :
    lastWrite (l ++ [e]) k = if k = e.1 then some e.2 else lastWrite l k := by
  by_cases hk : k = e.1 <;>
    simp [lastWrite, List.find?, hk, eq_comm]

/-- Claim C4: running any history of `append` calls on a fresh queue, the
queue view (`Queue.queue`, i.e. `list(self._queue)`) lists the distinct
identities in order of first append — a re-append of a present identity
creates no duplicate and does not move the entry — and the stored
annotation map of each identity is the one of its last append. -/
theorem C4_append_history_first_order_last_write (l : List (QKey × Ann)) :
    dictKeys (appendAll [] l) = firstOccur (l.map (fun e => e.1)) ∧
      ∀ k, dictLookup (appendAll [] l) k = lastWrite l k := by
  induction l using List.reverseRecOn with
  | nil => exact ⟨rfl, fun k => rfl⟩
  | append_singleton l e ih =>
    obtain ⟨ihk, ihl⟩ := ih
    have happ : appendAll [] (l ++ [e]) = dictSet (appendAll [] l) e.1 e.2 := by
      simp [appendAll]
    constructor
    · rw [happ, dictKeys_dictSet, ihk]
      simp only [List.map_append, List.map_cons, List.map_nil, firstOccur, firstOccurAux_snoc]
    · intro k
      rw [happ, dictLookup_dictSet, lastWrite_snoc, ihl k]

/-! ### Scope-stack and lock claims -/

/-- Claim C3 (code evaluation): `stop_recording` restores the detached
stack on normal completion, but when the body raises, the restoring
assignment after the unprotected `yield` never runs and the stack stays
detached (empty) — so restoration does not occur on every exit path, and
`current()` after an error is not the pre-suspend value. -/
theorem C3_stop_recording_skips_restore_on_raise :
    (QueueManager.stop_recording ⟨[5], [(5, [])], 0⟩ bodyOk).2.stack = [5] ∧
      (QueueManager.stop_recording ⟨[5], [(5, [])], 0⟩ bodyRaise).2.stack = [] ∧
      QueueManager.active_queue
          (QueueManager.stop_recording ⟨[5], [(5, [])], 0⟩ bodyRaise).2 ≠
        QueueManager.active_queue ⟨[5], [(5, [])], 0⟩ :=
  ⟨rfl, rfl, by decide⟩

/-- Claim C6: entering scope `B` inside the active scope `A`, appending
`x` while `B` is innermost, exiting `B`, then appending `y`: `A`'s queue
holds exactly `[B-as-instruction, y]` in that order and never `x`. -/
theorem C6_nested_scope_parent_records_composite_only
    (A B : Nat) (x y : Obj) (hAB : A ≠ B) (hxy : x ≠ y) :
    ∃ w3 : World,
      Queue.exit (QueueManager.append (Queue.enter ⟨[A], [(A, [])], 0⟩ B true) (.ins x) [])
        = some w3 ∧
      dictKeys (getQ (QueueManager.append w3 (.ins y) []).queues A) = [.qu B, .ins y] ∧
      QKey.ins x ∉ dictKeys (getQ (QueueManager.append w3 (.ins y) []).queues A) := by
  refine ⟨⟨[A], [(A, [(.qu B, [])]), (B, [(.ins x, [])])], 1⟩, ?_, ?_, ?_⟩
  · simp [Queue.enter, Queue.exit, QueueManager.recording, QueueManager.append,
      QueueManager.add_recording_queue, QueueManager.remove_recording_queue,
      getQ, setQ, dictSet, hAB]
  · simp [QueueManager.append, getQ, setQ, dictSet, dictKeys, hAB]
  · simp [QueueManager.append, getQ, setQ, dictSet, dictKeys, hAB, hxy]

/-- Witness for C6 at `A = 0`, `B = 1` and two distinct instructions. -/
theorem C6_nested_scope_parent_records_composite_only_witness :
    (0 : Nat) ≠ 1 ∧ o0 ≠ o1 ∧
      ∃ w3 : World,
        Queue.exit (QueueManager.append (Queue.enter ⟨[0], [(0, [])], 0⟩ 1 true) (.ins o0) [])
          = some w3 ∧
        dictKeys (getQ (QueueManager.append w3 (.ins o1) []).queues 0) = [.qu 1, .ins o1] ∧
        QKey.ins o0 ∉ dictKeys (getQ (QueueManager.append w3 (.ins o1) []).queues 0) :=
  ⟨by decide, by decide,
    C6_nested_scope_parent_records_composite_only 0 1 o0 o1 (by decide) (by decide)⟩

/-- Claim C8 (amended): with no scope active, `append`, `remove` and
`update_info` leave the state untouched and raise nothing; `get_info`
falls through to Python's implicit `return None` — a null result, not an
empty annotation map. -/
theorem C8_manager_noop_without_scope (w : World) (k : QKey) (kwargs : Ann)
    (h : w.stack = []) :
    QueueManager.append w k kwargs = w ∧
      QueueManager.remove w k = some w ∧
      QueueManager.update_info w k kwargs = w ∧
      QueueManager.get_info w k = Option.none := by
  obtain ⟨st, qs, lk⟩ := w
  simp only at h
  subst h
  exact ⟨rfl, rfl, rfl, rfl⟩

/-- Witness for C8 on a concrete empty-stack world. -/
theorem C8_manager_noop_without_scope_witness :
    (World.mk [] [] 0).stack = [] ∧
      (QueueManager.append ⟨[], [], 0⟩ (.ins o0) [] = ⟨[], [], 0⟩ ∧
        QueueManager.remove ⟨[], [], 0⟩ (.ins o0) = some ⟨[], [], 0⟩ ∧
        QueueManager.update_info ⟨[], [], 0⟩ (.ins o0) [] = ⟨[], [], 0⟩ ∧
        QueueManager.get_info ⟨[], [], 0⟩ (.ins o0) = Option.none) :=
  ⟨rfl, C8_manager_noop_without_scope ⟨[], [], 0⟩ (.ins o0) [] rfl⟩

/-- Counterexample for C8 as stated: with no scope active, `get_info`
returns `None`, not an empty annotation map. -/
theorem C8_get_info_none_counterexample :
    QueueManager.get_info ⟨[], [], 0⟩ (.ins o0) = Option.none ∧
      QueueManager.get_info ⟨[], [], 0⟩ (.ins o0) ≠ some ([] : Ann) :=
  ⟨rfl, by decide⟩

/-- Claim C9 (code evaluation): a completed enter/exit pair does not
return the shared reentrant lock to its pre-enter state: `Queue.__enter__`
acquires the lock but `Queue.__exit__` never releases it, so after one
enter/exit round trip on a fresh world the hold count is 1, not 0. -/
theorem C9_exit_leaves_lock_held :
    Queue.exit (Queue.enter ⟨[], [], 0⟩ 1 true) = some ⟨[], [], 1⟩ ∧
      (World.mk [] [] 1).lock ≠ (World.mk [] [] 0).lock :=
  ⟨rfl, by decide⟩

/-! ### Lemmas for the composite-registration claim -/

theorem getQ_setQ_self (qs : QueueMap) (i : Nat) (d : QDict) :
    getQ (setQ qs i d) i = d := by
  induction qs with
  | nil => simp [getQ, setQ]
  | cons e rest ih =>
    by_cases he : e.1 = i <;> simp [getQ, setQ, he, ih]

theorem setQ_setQ_self (qs : QueueMap) (i : Nat) (d1 d2 : QDict) :
    setQ (setQ qs i d1) i d2 = setQ qs i d2 := by
  induction qs with
  | nil => simp [setQ]
  | cons e rest ih =>
    by_cases he : e.1 = i <;> simp [setQ, he, ih]

theorem dictGet_dictSet_self (d : QDict) (k : QKey) (a : Ann) :
    dictGet (dictSet d k a) k = a := by
  induction d with
  | nil => simp [dictSet, dictGet]
  | cons e d ih => by_cases he : e.1 = k <;> simp [dictSet, dictGet, he, ih]

theorem dictGet_dictSet_ne (d : QDict) (k k' : QKey) (a : Ann) (h : k' ≠ k) :
    dictGet (dictSet d k a) k' = dictGet d k' := by
  induction d with
  | nil => simp [dictSet, dictGet, Ne.symm h]
  | cons e d ih =>
    by_cases he : e.1 = k
    · simp [dictSet, dictGet, he, Ne.symm h]
    · simp [dictSet, dictGet, he, ih]

theorem dictGet_dictUpdateInfo_self (d : QDict) (k : QKey) (kw : Ann)
    (h : dictHasKey d k = true) :
    dictGet (dictUpdateInfo d k kw) k = annUpdate (dictGet d k) kw := by
  induction d with
  | nil => simp [dictHasKey] at h
  | cons e d ih =>
    by_cases he : e.1 = k
    · simp [dictUpdateInfo, dictGet, he]
    · have h' : dictHasKey d k = true := by simpa [dictHasKey, he] using h
      simp [dictUpdateInfo, dictGet, he, ih h']

theorem dictGet_dictUpdateInfo_ne (d : QDict) (k k' : QKey) (kw : Ann) (h : k' ≠ k) :
    dictGet (dictUpdateInfo d k kw) k' = dictGet d k' := by
  induction d with
  | nil => simp [dictUpdateInfo]
  | cons e d ih =>
    by_cases he : e.1 = k
    · simp [dictUpdateInfo, dictGet, he, Ne.symm h]
    · simp [dictUpdateInfo, dictGet, he, ih]

theorem dictHasKey_iff (d : QDict) (k : QKey) :
    dictHasKey d k = true ↔ k ∈ dictKeys d := by
  simp [dictHasKey, dictKeys, List.any_eq_true, List.mem_map]

theorem dictKeys_dictUpdateInfo (d : QDict) (k : QKey) (kw : Ann) :
    dictKeys (dictUpdateInfo d k kw) = dictKeys d := by
  induction d with
  | nil => rfl
  | cons e d ih =>
    by_cases he : e.1 = k
    · simp [dictUpdateInfo, dictKeys, he]
    · simp only [dictUpdateInfo, if_neg he, dictKeys, List.map_cons]
      exact congrArg (List.cons e.1) ih

theorem dictHasKey_dictSet_of (d : QDict) (k0 k : QKey) (a : Ann)
    (h : dictHasKey d k = true) :
    dictHasKey (dictSet d k0 a) k = true := by
  rw [dictHasKey_iff] at h ⊢
  rw [dictKeys_dictSet]
  split
  · exact h
  · exact List.mem_append.mpr (Or.inl h)

theorem hesFold_hasKey (s : QKey) (cs : List QKey) :
    ∀ (d : QDict) (k : QKey), dictHasKey d k = true →
      dictHasKey (hesFold s d cs) k = true := by
  induction cs with
  | nil => intro d k h; exact h
  | cons c cs ih =>
    intro d k h
    apply ih
    apply dictHasKey_dictSet_of
    rw [dictHasKey_iff, dictKeys_dictUpdateInfo, ← dictHasKey_iff]
    exact h

theorem annLookup_annSet_self (m : Ann) (key : String) (v : Val) :
    annLookup (annSet m key v) key = some v := by
  induction m with
  | nil => simp [annSet, annLookup]
  | cons e m ih => by_cases he : e.1 = key <;> simp [annSet, annLookup, he, ih]

theorem annUpdate_single (m : Ann) (key : String) (v : Val) :
    annUpdate m [(key, v)] = annSet m key v := rfl

theorem he_queue_getQ (s : QKey) (cs : List QKey) :
    ∀ (w : World) (q0 : Nat) (rest : List Nat), w.stack = q0 :: rest →
      (he_queue w s cs).stack = w.stack ∧
      getQ (he_queue w s cs).queues q0 = hesFold s (getQ w.queues q0) cs := by
  induction cs with
  | nil => intro w q0 rest _; exact ⟨rfl, rfl⟩
  | cons c cs ih =>
    intro w q0 rest hst
    have hstep :
        QueueManager.append (safe_update_info w c [("owner", .ref s)]) s [("owns", .ref c)]
          = { w with queues := setQ w.queues q0 (hestep s (getQ w.queues q0) c) } := by
      obtain ⟨st, qs, lk⟩ := w
      simp only at hst
      subst hst
      simp [QueueManager.append, safe_update_info, QueueManager.update_info,
        hestep, getQ_setQ_self, setQ_setQ_self]
    have h1 : he_queue w s (c :: cs) =
        he_queue { w with queues := setQ w.queues q0 (hestep s (getQ w.queues q0) c) } s cs := by
      show he_queue
          (QueueManager.append (safe_update_info w c [("owner", .ref s)]) s [("owns", .ref c)])
          s cs = _
      rw [hstep]
    obtain ⟨ihs, ihq⟩ :=
      ih { w with queues := setQ w.queues q0 (hestep s (getQ w.queues q0) c) } q0 rest hst
    refine ⟨?_, ?_⟩
    · rw [h1, ihs]
    · rw [h1, ihq, getQ_setQ_self]
      rfl

theorem hesFold_gets (s : QKey) (cs : List QKey) :
    ∀ (d : QDict) (lastc : QKey), cs.Nodup → s ∉ cs → cs.getLast? = some lastc →
      (∀ c ∈ cs, dictHasKey d c = true) →
      (∀ c ∈ cs, annLookup (dictGet (hesFold s d cs) c) "owner" = some (.ref s)) ∧
      dictGet (hesFold s d cs) s = [("owns", .ref lastc)] := by
  induction cs using List.reverseRecOn with
  | nil => intro d lastc _ _ hlast _; simp at hlast
  | append_singleton cs c ih =>
    intro d lastc hnd hs hlast hpres
    have hlastc : lastc = c := by
      rw [List.getLast?_append_cons] at hlast
      simpa using hlast.symm
    rw [hlastc]
    have hcs : s ∉ cs := fun h => hs (List.mem_append.mpr (Or.inl h))
    have hsc : s ≠ c := fun h => hs (List.mem_append.mpr (Or.inr (by simp [h])))
    have hcnotin : c ∉ cs :=
      fun hmem => (List.nodup_append.mp hnd).2.2 hmem (by simp)
    have hfold : hesFold s d (cs ++ [c]) = hestep s (hesFold s d cs) c := by
      simp [hesFold]
    by_cases hcse : cs = []
    · subst hcse
      constructor
      · intro c' hc'
        have hc'c : c' = c := by simpa using hc'
        subst hc'c
        have hpresc : dictHasKey d c' = true := hpres c' (by simp)
        rw [hfold]
        show annLookup (dictGet (dictSet (dictUpdateInfo d c'
          [("owner", .ref s)]) s [("owns", .ref c')]) c') "owner" = some (.ref s)
        rw [dictGet_dictSet_ne _ _ _ _ (fun h => hsc h.symm),
          dictGet_dictUpdateInfo_self _ _ _ hpresc, annUpdate_single, annLookup_annSet_self]
      · rw [hfold]
        show dictGet (dictSet (dictUpdateInfo d c
          [("owner", .ref s)]) s [("owns", .ref c)]) s = [("owns", .ref c)]
        rw [dictGet_dictSet_self]
    · obtain ⟨lc, hlc⟩ : ∃ lc, cs.getLast? = some lc := by
        cases h : cs.getLast? with
        | none => exact absurd (List.getLast?_eq_none_iff.mp h) hcse
        | some lc => exact ⟨lc, rfl⟩
      obtain ⟨ih1, _⟩ := ih d lc (List.nodup_append.mp hnd).1 hcs hlc
        (fun c' hc' => hpres c' (List.mem_append.mpr (Or.inl hc')))
      constructor
      · intro c' hc'
        rcases List.mem_append.mp hc' with hin | hin
        · have hc'c : c' ≠ c := fun h => hcnotin (h ▸ hin)
          have hc's : c' ≠ s := fun h => hcs (h ▸ hin)
          rw [hfold]
          show annLookup (dictGet (dictSet (dictUpdateInfo (hesFold s d cs) c
            [("owner", .ref s)]) s [("owns", .ref c)]) c') "owner" = some (.ref s)
          rw [dictGet_dictSet_ne _ _ _ _ hc's, dictGet_dictUpdateInfo_ne _ _ _ _ hc'c,
            ih1 c' hin]
        · have hc'c : c' = c := by simpa using hin
          subst hc'c
          have hpresc : dictHasKey (hesFold s d cs) c' = true :=
            hesFold_hasKey s cs d c' (hpres c' hc')
          rw [hfold]
          show annLookup (dictGet (dictSet (dictUpdateInfo (hesFold s d cs) c'
            [("owner", .ref s)]) s [("owns", .ref c')]) c') "owner" = some (.ref s)
          rw [dictGet_dictSet_ne _ _ _ _ (fun h => hsc h.symm),
            dictGet_dictUpdateInfo_self _ _ _ hpresc, annUpdate_single, annLookup_annSet_self]
      · rw [hfold]
        show dictGet (dictSet (dictUpdateInfo (hesFold s d cs) c
          [("owner", .ref s)]) s [("owns", .ref c)]) s = [("owns", .ref c)]
        rw [dictGet_dictSet_self]

/-- Counterexample for C7 as stated: finalizing a composite with the two
children `o0` then `o1` leaves the composite with no `owns` entry for the
first child — each `append(self, owns=op)` overwrites the composite's
whole annotation map, so only the last child's entry survives. -/
theorem C7_owns_every_child_counterexample :
    ("owns", Val.ref (.ins o0)) ∉
        dictGet (getQ (he_queue exW7 exS7 [.ins o0, .ins o1]).queues 0) exS7 ∧
      dictGet (getQ (he_queue exW7 exS7 [.ins o0, .ins o1]).queues 0) exS7
        = [("owns", Val.ref (.ins o1))] :=
  ⟨by decide, rfl⟩

/-- Claim C7 (amended): finalizing a composite `s` with (distinct,
already-queued) children `c1..cn` in an active outer scope annotates each
child with `owner = s`, and leaves the composite annotated with a single
`owns` entry naming only the last child — each child's registration
overwrites the previous `owns` entry, rather than accumulating one entry
per child. -/
theorem C7_finalize_owner_each_child_owns_last (w : World) (q0 : Nat) (rest : List Nat)
    (s : QKey) (cs : List QKey) (lastc : QKey)
    (hst : w.stack = q0 :: rest) (hnd : cs.Nodup) (hs : s ∉ cs)
    (hlast : cs.getLast? = some lastc)
    (hpres : ∀ c ∈ cs, dictHasKey (getQ w.queues q0) c = true) :
    (∀ c ∈ cs, annLookup (dictGet (getQ (he_queue w s cs).queues q0) c) "owner"
        = some (.ref s)) ∧
      dictGet (getQ (he_queue w s cs).queues q0) s = [("owns", .ref lastc)] := by
  obtain ⟨-, hq⟩ := he_queue_getQ s cs w q0 rest hst
  rw [hq]
  exact hesFold_gets s cs (getQ w.queues q0) lastc hnd hs hlast hpres

/-- Witness for the amended C7 on the concrete two-child world. -/
theorem C7_finalize_owner_each_child_owns_last_witness :
    (exW7.stack = 0 :: [] ∧ ([QKey.ins o0, .ins o1]).Nodup ∧
      exS7 ∉ [QKey.ins o0, .ins o1] ∧
      ([QKey.ins o0, .ins o1]).getLast? = some (.ins o1) ∧
      (∀ c ∈ [QKey.ins o0, .ins o1], dictHasKey (getQ exW7.queues 0) c = true)) ∧
    ((∀ c ∈ [QKey.ins o0, .ins o1],
        annLookup (dictGet (getQ (he_queue exW7 exS7 [.ins o0, .ins o1]).queues 0) c)
          "owner" = some (.ref exS7)) ∧
      dictGet (getQ (he_queue exW7 exS7 [.ins o0, .ins o1]).queues 0) exS7
        = [("owns", .ref (.ins o1))]) :=
  ⟨⟨rfl, by decide, by decide, rfl, by decide⟩,
    C7_finalize_owner_each_child_owns_last exW7 0 [] exS7 [.ins o0, .ins o1] (.ins o1)
      rfl (by decide) (by decide) rfl (by decide)⟩
